import Mathlib

/-!
# Seat Heater Control System: the temperature sensor reader

Verification development for `HAL/potentiometer.c` (`LM35_getTemperature`),
with the constants of `HAL/potentiometer.h` and `MCAL/ADC/adc.h`.

The C expression converted here is

    (uint8)(((uint32)digitalValue*SENSOR_MAX_TEMPERATURE)/ADC_MAXIMUM_VALUE)

where `SENSOR_MAX_TEMPERATURE` is the `double` literal `45.0`.  By the usual
arithmetic conversions the product and the quotient are computed in `double`
(IEEE 754 binary64, round to nearest, ties to even) and the result is then
converted to `uint8`, which discards the fraction.  The development models the
binary64 roundings explicitly (finite doubles are the rationals they denote)
and proves that, on every 16-bit sample, the outcome is the integer quotient
`digitalValue / 91`.
-/

namespace SeatHeater

/-! ## Constants -/

/-- The macro `ADC_MAXIMUM_VALUE` of adc.h: `#define ADC_MAXIMUM_VALUE 4095`. -/
def ADC_MAXIMUM_VALUE : Nat := 4095

/-- The macro `SENSOR_MAX_TEMPERATURE` of potentiometer.h:
`#define SENSOR_MAX_TEMPERATURE 45.0`, a `double` literal; the value 45 is
exactly representable. -/
def SENSOR_MAX_TEMPERATURE : ℚ := 45

/-! ## IEEE 754 binary64 arithmetic on the values it denotes -/

/-- Nearest integer to `y`, a tie going to the even neighbour. -/
def roundHalfEven (y : ℚ) : ℤ :=
  let f := ⌊y⌋
  let d := y - f
  if d < 1 / 2 then f
  else if 1 / 2 < d then f + 1
  else if f % 2 = 0 then f else f + 1

/-- Rounding of a rational to binary64 (53 significant bits, round to nearest,
ties to even).  The exponent range is not bounded here: every value that
occurs in the conversion lies between `2 ^ (-7)` and `2 ^ 22`, far inside the
normal range of the format. -/
def binary64_round (x : ℚ) : ℚ :=
  if x = 0 then 0
  else
    let ulp : ℚ := (2 : ℚ) ^ (Int.log 2 |x| - 52)
    (roundHalfEven (x / ulp) : ℚ) * ulp

/-- Conversion of an unsigned integer to `double`. -/
def double_of_nat (n : Nat) : ℚ := binary64_round (n : ℚ)

/-- Multiplication of two doubles. -/
def double_mul (a b : ℚ) : ℚ := binary64_round (a * b)

/-- Division of two doubles (the divisor is non-zero wherever it is used). -/
def double_div (a b : ℚ) : ℚ := binary64_round (a / b)

/-- Conversion `(uint8)x` of a double: the fraction is discarded (truncation
toward zero); when the integral part is not representable in `uint8` the C
standard leaves the conversion undefined, which is `none` here. -/
def double_to_uint8 (x : ℚ) : Option Nat :=
  if -1 < x ∧ x < 256 then some (if 0 ≤ x then ⌊x⌋ else ⌈x⌉).toNat else none

/-! ## `LM35_getTemperature` -/

/-- Lines 21 and 23 of potentiometer.c, on the sample held in `digitalValue`:
`uint16 temperature = (uint8)(((uint32)digitalValue*SENSOR_MAX_TEMPERATURE)/ADC_MAXIMUM_VALUE);`
followed by `return temperature;` out of a function whose result type is `uint8`. -/
def LM35_temperatureOf (digitalValue : Nat) : Option Nat :=
  let widened : Nat := digitalValue % 2 ^ 32
  let product : ℚ := double_mul (double_of_nat widened) SENSOR_MAX_TEMPERATURE
  let quotient : ℚ := double_div product (double_of_nat ADC_MAXIMUM_VALUE)
  (double_to_uint8 quotient).map fun narrowed =>
    let temperature : Nat := narrowed % 2 ^ 16
    temperature % 2 ^ 8

/-- The function `uint8 LM35_getTemperature(uint8 analogPin)`.  `ADC_Read` is
declared in adc.h (`uint16 ADC_Read(uint8 analogPin);`) and defined outside the
sources at hand, so it is a parameter: a state-passing function from the pin
and the hardware state to the raw sample and the next hardware state.  Its
result is a `uint16`. -/
def LM35_getTemperature {σ : Type} (ADC_Read : Nat → σ → Nat × σ)
    (analogPin : Nat) (hw : σ) : Option Nat × σ :=
  let rd := ADC_Read analogPin hw
  let digitalValue : Nat := rd.1 % 2 ^ 16
  (LM35_temperatureOf digitalValue, rd.2)

/-! ## Harness: stand-ins for the ADC and for a periodic caller -/

/-- Instrumentation of an `ADC_Read`: the same read, with the pin of every call
appended to a log kept next to the hardware state. -/
def ADC_Read_logged {σ : Type} (ADC_Read : Nat → σ → Nat × σ)
    (analogPin : Nat) (st : σ × List Nat) : Nat × (σ × List Nat) :=
  let rd := ADC_Read analogPin st.1
  (rd.1, (rd.2, st.2 ++ [analogPin]))

/-- A test double for `ADC_Read`: the hardware state is the list of raw samples
still to come; a read delivers the first of them (0 once the list is
exhausted) and leaves the rest. -/
def ADC_Read_queue (_analogPin : Nat) (pending : List Nat) : Nat × List Nat :=
  (pending.headD 0, pending.tail)

/-- The caller's side of `n` consecutive calls of `LM35_getTemperature` on one
pin, the hardware state threaded from each call to the next. -/
def LM35_poll {σ : Type} (ADC_Read : Nat → σ → Nat × σ) (analogPin : Nat) :
    Nat → σ → List (Option Nat) × σ
  | 0, hw => ([], hw)
  | n + 1, hw =>
    let first := LM35_getTemperature ADC_Read analogPin hw
    let rest := LM35_poll ADC_Read analogPin n first.2
    (first.1 :: rest.1, rest.2)

/-- The raw samples, as `uint16` values, that `n` consecutive reads of
`ADC_Read` on one pin deliver, the hardware state threaded from each read to
the next. -/
def ADC_samples {σ : Type} (ADC_Read : Nat → σ → Nat × σ) (analogPin : Nat) :
    Nat → σ → List Nat
  | 0, _ => []
  | n + 1, hw =>
    let rd := ADC_Read analogPin hw
    (rd.1 % 2 ^ 16) :: ADC_samples ADC_Read analogPin n rd.2

/-- The linear law as the specification words it, `raw * T_MAX / ADC_MAX` with
`T_MAX = 45.0` and `ADC_MAX = 4095`, as an exact rational: the yardstick the
value returned by the code is compared with. -/
def spec_linear_law (raw : Nat) : ℚ :=
  (raw : ℚ) * SENSOR_MAX_TEMPERATURE / (ADC_MAXIMUM_VALUE : ℚ)

/-! ## Rounding lemmas -/

theorem roundHalfEven_intCast (n : ℤ) : roundHalfEven (n : ℚ) = n := by
  simp [roundHalfEven]

theorem abs_roundHalfEven_sub_le (y : ℚ) : |(roundHalfEven y : ℚ) - y| ≤ 1 / 2 := by
  have h1 : ((⌊y⌋ : ℤ) : ℚ) ≤ y := Int.floor_le y
  have h2 : y < ((⌊y⌋ : ℤ) : ℚ) + 1 := Int.lt_floor_add_one y
  unfold roundHalfEven
  simp only
  rw [abs_le]
  split_ifs with ha hb hc
  · constructor <;> linarith
  · constructor <;> push_cast <;> linarith
  · push_neg at ha hb
    constructor <;> linarith
  · push_neg at ha hb
    constructor <;> push_cast <;> linarith

/-- The rounding error is at most half a unit in the last place. -/
theorem abs_binary64_round_sub_le (x : ℚ) (hx : x ≠ 0) :
    |binary64_round x - x| ≤ (2 : ℚ) ^ (Int.log 2 |x| - 52) / 2 := by
  have hu : (0 : ℚ) < (2 : ℚ) ^ (Int.log 2 |x| - 52) := by positivity
  have key := abs_roundHalfEven_sub_le (x / (2 : ℚ) ^ (Int.log 2 |x| - 52))
  have hrw : binary64_round x - x
      = ((roundHalfEven (x / (2 : ℚ) ^ (Int.log 2 |x| - 52)) : ℚ)
          - x / (2 : ℚ) ^ (Int.log 2 |x| - 52)) * (2 : ℚ) ^ (Int.log 2 |x| - 52) := by
    simp only [binary64_round, if_neg hx]
    field_simp
  rw [hrw, abs_mul, abs_of_pos hu]
  calc |(roundHalfEven (x / (2 : ℚ) ^ (Int.log 2 |x| - 52)) : ℚ)
          - x / (2 : ℚ) ^ (Int.log 2 |x| - 52)| * (2 : ℚ) ^ (Int.log 2 |x| - 52)
      ≤ 1 / 2 * (2 : ℚ) ^ (Int.log 2 |x| - 52) :=
        mul_le_mul_of_nonneg_right key hu.le
    _ = (2 : ℚ) ^ (Int.log 2 |x| - 52) / 2 := by ring

/-- Integers below `2 ^ 53` are doubles: rounding leaves them alone. -/
theorem binary64_round_natCast (n : Nat) (hn : n < 2 ^ 53) :
    binary64_round (n : ℚ) = n := by
  rcases Nat.eq_zero_or_pos n with h0 | hpos
  · subst h0
    simp [binary64_round]
  · have hne : (n : ℚ) ≠ 0 := by exact_mod_cast hpos.ne'
    have hlog : Nat.log 2 n < 53 := Nat.log_lt_of_lt_pow hpos.ne' hn
    obtain ⟨k, hk⟩ : ∃ k : Nat, (Nat.log 2 n : ℤ) - 52 = -(k : ℤ) :=
      ⟨52 - Nat.log 2 n, by omega⟩
    have habs : |(n : ℚ)| = ((n : Nat) : ℚ) := abs_of_nonneg (by positivity)
    have hl : Int.log 2 |(n : ℚ)| = (Nat.log 2 n : ℤ) := by
      rw [habs]; exact Int.log_natCast 2 n
    have hdiv : (n : ℚ) / (2 : ℚ) ^ (-(k : ℤ)) = (((n * 2 ^ k : Nat) : ℤ) : ℚ) := by
      rw [zpow_neg, zpow_natCast]
      push_cast
      field_simp
    simp only [binary64_round, if_neg hne, hl, hk, hdiv, roundHalfEven_intCast]
    rw [zpow_neg, zpow_natCast]
    push_cast
    field_simp


/-- A double lying between the natural number `q` and its successor converts to
`q` when `q` fits `uint8`, and has no defined conversion otherwise. -/
theorem double_to_uint8_of_mem_Ico (y : ℚ) (q : Nat) (h1 : (q : ℚ) ≤ y)
    (h2 : y < (q : ℚ) + 1) :
    double_to_uint8 y = if q < 256 then some q else none := by
  have h0 : (0 : ℚ) ≤ y := le_trans (by positivity) h1
  have hfl : ⌊y⌋ = (q : ℤ) := by
    rw [Int.floor_eq_iff]
    exact ⟨by exact_mod_cast h1, by exact_mod_cast h2⟩
  unfold double_to_uint8
  by_cases hq : q < 256
  · have hq' : (q : ℚ) + 1 ≤ 256 := by exact_mod_cast hq
    have hc : -1 < y ∧ y < 256 := ⟨by linarith, by linarith⟩
    rw [if_pos hc, if_pos hq, if_pos h0, hfl]
    simp
  · have hq' : (256 : ℚ) ≤ q := by exact_mod_cast (not_lt.mp hq)
    have hc : ¬ (-1 < y ∧ y < 256) := fun h => absurd h.2 (not_lt.mpr (le_trans hq' h1))
    rw [if_neg hc, if_neg hq]

/-- The product `(uint32)digitalValue * 45.0` is an integer below `2 ^ 53`: the
double multiplication is exact. -/
theorem double_product_exact (r : Nat) (hr : r < 2 ^ 16) :
    double_mul (double_of_nat r) SENSOR_MAX_TEMPERATURE = ((r * 45 : Nat) : ℚ) := by
  have e1 : double_of_nat r = (r : ℚ) := binary64_round_natCast r (by omega)
  have := binary64_round_natCast (r * 45) (by omega)
  rw [e1]
  simpa [double_mul, SENSOR_MAX_TEMPERATURE] using this

/-- The divisor `ADC_MAXIMUM_VALUE` converts to the double 4095 exactly. -/
theorem double_divisor_exact : double_of_nat ADC_MAXIMUM_VALUE = (4095 : ℚ) := by
  have := binary64_round_natCast 4095 (by norm_num)
  simpa [double_of_nat, ADC_MAXIMUM_VALUE] using this

/-- The double quotient computed by the conversion, for a 16-bit sample, lies
in the unit interval that starts at the integer quotient by 91. -/
theorem quotient_mem_Ico (r : Nat) (hr : r < 2 ^ 16) :
    ((r / 91 : Nat) : ℚ)
        ≤ double_div (double_mul (double_of_nat r) SENSOR_MAX_TEMPERATURE)
            (double_of_nat ADC_MAXIMUM_VALUE) ∧
      double_div (double_mul (double_of_nat r) SENSOR_MAX_TEMPERATURE)
            (double_of_nat ADC_MAXIMUM_VALUE) < ((r / 91 : Nat) : ℚ) + 1 := by
  have e2 := double_product_exact r hr
  have e3 := double_divisor_exact
  have e4 : ((r * 45 : Nat) : ℚ) / 4095 = (r : ℚ) / 91 := by
    push_cast
    ring
  rw [e2, e3]
  unfold double_div
  rw [e4]
  have hdm : (r : ℚ) = 91 * ((r / 91 : Nat) : ℚ) + ((r % 91 : Nat) : ℚ) := by
    exact_mod_cast (Nat.div_add_mod r 91).symm
  have hq : r / 91 < 1000 := by omega
  have hqQ : ((r / 91 : Nat) : ℚ) < 1000 := by exact_mod_cast hq
  have hq0 : (0 : ℚ) ≤ ((r / 91 : Nat) : ℚ) := by positivity
  rcases Nat.eq_zero_or_pos (r % 91) with hk | hk
  · have hx : (r : ℚ) / 91 = ((r / 91 : Nat) : ℚ) := by
      rw [hdm, hk]
      push_cast
      field_simp
    rw [hx, binary64_round_natCast (r / 91) (by omega)]
    constructor <;> linarith
  · have hk1 : (1 : ℚ) ≤ ((r % 91 : Nat) : ℚ) := by exact_mod_cast hk
    have hk2 : ((r % 91 : Nat) : ℚ) ≤ 90 := by
      have : r % 91 ≤ 90 := by omega
      exact_mod_cast this
    have hx : (r : ℚ) / 91 = ((r / 91 : Nat) : ℚ) + ((r % 91 : Nat) : ℚ) / 91 := by
      rw [hdm]
      field_simp
      ring
    have hlo : ((r / 91 : Nat) : ℚ) + 1 / 91 ≤ (r : ℚ) / 91 := by
      rw [hx]
      have : (1 : ℚ) / 91 ≤ ((r % 91 : Nat) : ℚ) / 91 :=
        div_le_div_of_nonneg_right hk1 (by norm_num)
      linarith
    have hhi : (r : ℚ) / 91 ≤ ((r / 91 : Nat) : ℚ) + 90 / 91 := by
      rw [hx]
      have : ((r % 91 : Nat) : ℚ) / 91 ≤ 90 / 91 :=
        div_le_div_of_nonneg_right hk2 (by norm_num)
      linarith
    have hxpos : (0 : ℚ) < (r : ℚ) / 91 := by linarith
    have hxne : (r : ℚ) / 91 ≠ 0 := hxpos.ne'
    have hxlt : |(r : ℚ) / 91| < ((2 : Nat) : ℚ) ^ (10 : ℤ) := by
      rw [abs_of_pos hxpos]
      norm_num
      linarith
    have hlog : Int.log 2 |(r : ℚ) / 91| < 10 :=
      (Int.lt_zpow_iff_log_lt (by norm_num) (abs_pos.mpr hxne)).mp hxlt
    have hulp : (2 : ℚ) ^ (Int.log 2 |(r : ℚ) / 91| - 52) ≤ (2 : ℚ) ^ (-43 : ℤ) :=
      zpow_le_zpow_right₀ (by norm_num) (by omega)
    have herr := abs_binary64_round_sub_le ((r : ℚ) / 91) hxne
    have hsmall : (2 : ℚ) ^ (-43 : ℤ) / 2 < 1 / 91 := by norm_num
    have hb := abs_le.mp herr
    constructor
    · linarith [hb.1]
    · linarith [hb.2]

/-- The conversion on a 16-bit sample: the integer quotient by 91 whenever that
fits `uint8`, and undefined otherwise. -/
theorem LM35_temperatureOf_eq (r : Nat) (hr : r < 2 ^ 16) :
    LM35_temperatureOf r = if r / 91 < 256 then some (r / 91) else none := by
  have hw : r % 2 ^ 32 = r := Nat.mod_eq_of_lt (by omega)
  obtain ⟨h1, h2⟩ := quotient_mem_Ico r hr
  unfold LM35_temperatureOf
  simp only [hw]
  rw [double_to_uint8_of_mem_Ico _ (r / 91) h1 h2]
  by_cases hq : r / 91 < 256
  · have : r / 91 % 65536 % 256 = r / 91 := by omega
    simp [hq, this]
  · simp [hq]

/-- For 16-bit samples whose quotient by 91 exceeds 255 the C conversion to
`uint8` is undefined. -/
theorem LM35_temperatureOf_undefined (r : Nat) (hr : r < 2 ^ 16) (hbig : 23296 ≤ r) :
    LM35_temperatureOf r = none := by
  rw [LM35_temperatureOf_eq r hr, if_neg (by omega)]

/-- The value returned by a call, from the sample its read delivered. -/
theorem LM35_getTemperature_fst {σ : Type} (A : Nat → σ → Nat × σ) (pin : Nat) (hw : σ)
    (r : Nat) (hs : (A pin hw).1 = r) (hr : r < 2 ^ 16) :
    (LM35_getTemperature A pin hw).1 = if r / 91 < 256 then some (r / 91) else none := by
  have hm : (A pin hw).1 % 2 ^ 16 = r := by rw [hs]; exact Nat.mod_eq_of_lt hr
  show LM35_temperatureOf ((A pin hw).1 % 2 ^ 16) = _
  rw [hm, LM35_temperatureOf_eq r hr]

/-- On a sample of the 12-bit range a call returns the integer quotient by 91. -/
theorem LM35_getTemperature_in_range {σ : Type} (A : Nat → σ → Nat × σ) (pin : Nat)
    (hw : σ) (r : Nat) (hs : (A pin hw).1 = r) (hr : r ≤ 4095) :
    (LM35_getTemperature A pin hw).1 = some (r / 91) := by
  rw [LM35_getTemperature_fst A pin hw r hs (by omega), if_pos (by omega)]

theorem spec_linear_law_eq_div (r : Nat) : spec_linear_law r = (r : ℚ) / 91 := by
  unfold spec_linear_law SENSOR_MAX_TEMPERATURE ADC_MAXIMUM_VALUE
  push_cast
  ring

theorem div91_le_spec_linear_law (r : Nat) : ((r / 91 : Nat) : ℚ) ≤ spec_linear_law r := by
  rw [spec_linear_law_eq_div, le_div_iff₀ (by norm_num)]
  have : r / 91 * 91 ≤ r := Nat.div_mul_le_self r 91
  exact_mod_cast this

theorem spec_linear_law_lt_div91_succ (r : Nat) : spec_linear_law r < ((r / 91 : Nat) : ℚ) + 1 := by
  rw [spec_linear_law_eq_div, div_lt_iff₀ (by norm_num)]
  have : r < (r / 91 + 1) * 91 := by omega
  exact_mod_cast this

theorem floor_spec_linear_law (r : Nat) : ⌊spec_linear_law r⌋ = ((r / 91 : Nat) : ℤ) := by
  rw [Int.floor_eq_iff]
  exact ⟨by exact_mod_cast div91_le_spec_linear_law r, by exact_mod_cast spec_linear_law_lt_div91_succ r⟩

theorem div91_eq_spec_linear_law_iff (r : Nat) : ((r / 91 : Nat) : ℚ) = spec_linear_law r ↔ 91 ∣ r := by
  rw [spec_linear_law_eq_div, eq_div_iff (by norm_num)]
  constructor
  · intro h
    have h' : r / 91 * 91 = r := by exact_mod_cast h
    exact ⟨r / 91, by omega⟩
  · rintro ⟨k, rfl⟩
    have : 91 * k / 91 * 91 = 91 * k := by omega
    exact_mod_cast this

/-- Polling a queue that holds only zeros returns the temperature 0 every time. -/
theorem LM35_poll_zeros (pin n : Nat) :
    (LM35_poll ADC_Read_queue pin n (List.replicate n 0)).1 = List.replicate n (some 0) := by
  induction n with
  | zero => rfl
  | succ k ih =>
    have h0 : (LM35_getTemperature ADC_Read_queue pin (List.replicate (k + 1) 0)).1 = some 0 :=
      LM35_getTemperature_in_range ADC_Read_queue pin _ 0 rfl (by omega)
    have h1 : (LM35_getTemperature ADC_Read_queue pin (List.replicate (k + 1) 0)).2
        = List.replicate k 0 := rfl
    show (LM35_getTemperature ADC_Read_queue pin (List.replicate (k + 1) 0)).1
        :: (LM35_poll ADC_Read_queue pin k
              (LM35_getTemperature ADC_Read_queue pin (List.replicate (k + 1) 0)).2).1
        = List.replicate (k + 1) (some 0)
    rw [h0, h1, ih]
    rfl

/-- Consecutive calls whose reads all stay in the 12-bit range return, sample
by sample, the integer quotient by 91. -/
theorem LM35_poll_in_range {σ : Type} (A : Nat → σ → Nat × σ) (pin n : Nat) (hw : σ)
    (h : ∀ s ∈ ADC_samples A pin n hw, s ≤ 4095) :
    (LM35_poll A pin n hw).1 = (ADC_samples A pin n hw).map fun s => some (s / 91) := by
  induction n generalizing hw with
  | zero => rfl
  | succ k ih =>
    have hmem : ∀ s ∈ ((A pin hw).1 % 2 ^ 16) :: ADC_samples A pin k (A pin hw).2,
        s ≤ 4095 := h
    have hhead : (A pin hw).1 % 2 ^ 16 ≤ 4095 := hmem _ (List.mem_cons_self _ _)
    have htail : ∀ s ∈ ADC_samples A pin k (A pin hw).2, s ≤ 4095 :=
      fun s hsm => hmem s (List.mem_cons_of_mem _ hsm)
    have h0 : LM35_temperatureOf ((A pin hw).1 % 2 ^ 16)
        = some ((A pin hw).1 % 2 ^ 16 / 91) := by
      rw [LM35_temperatureOf_eq _ (by omega), if_pos (by omega)]
    show LM35_temperatureOf ((A pin hw).1 % 2 ^ 16) :: (LM35_poll A pin k (A pin hw).2).1
        = (((A pin hw).1 % 2 ^ 16) :: ADC_samples A pin k (A pin hw).2).map
            fun s => some (s / 91)
    rw [h0, ih (A pin hw).2 htail]
    rfl

/-- Consecutive calls whose reads all deliver 0 return the temperature 0 every
time, whatever the ADC. -/
theorem LM35_poll_of_zero_samples {σ : Type} (A : Nat → σ → Nat × σ) (pin n : Nat)
    (hw : σ) (h : ADC_samples A pin n hw = List.replicate n 0) :
    (LM35_poll A pin n hw).1 = List.replicate n (some 0) := by
  have hr : ∀ s ∈ ADC_samples A pin n hw, s ≤ 4095 := by
    intro s hsm
    rw [h] at hsm
    rw [List.eq_of_mem_replicate hsm]
    omega
  rw [LM35_poll_in_range A pin n hw hr, h, List.map_replicate]

/-! ## The claims -/

/-- C1 (as stated) fails: on the raw sample 1 the call returns the temperature
0, while the linear law gives 1 * 45.0 / 4095, which is not 0. -/
theorem C1_counterexample :
    (LM35_getTemperature ADC_Read_queue 0 [1]).1 = some 0 ∧
      ((0 : Nat) : ℚ) ≠ spec_linear_law 1 := by
  refine ⟨LM35_getTemperature_in_range ADC_Read_queue 0 [1] 1 rfl (by omega), ?_⟩
  rw [spec_linear_law_eq_div]
  norm_num

/-- C1 (amended): for every raw sample r in [0, 4095] returned by ADC_Read,
LM35_getTemperature returns the linear law r * 45.0 / 4095 rounded down to a
whole number of degrees, and that equals the linear law itself exactly when r
is a multiple of 91. -/
theorem C1_linear_law_rounded_down {σ : Type} (ADC_Read : Nat → σ → Nat × σ)
    (analogPin : Nat) (hw : σ) (r : Nat) (hs : (ADC_Read analogPin hw).1 = r)
    (hr : r ≤ 4095) :
    ∃ t : Nat, (LM35_getTemperature ADC_Read analogPin hw).1 = some t ∧
      (t : ℤ) = ⌊spec_linear_law r⌋ ∧ ((t : ℚ) = spec_linear_law r ↔ 91 ∣ r) :=
  ⟨r / 91, LM35_getTemperature_in_range ADC_Read analogPin hw r hs hr,
    (floor_spec_linear_law r).symm, div91_eq_spec_linear_law_iff r⟩

/-- The amended C1 at the raw sample 1000. -/
theorem C1_linear_law_rounded_down_witness :
    (ADC_Read_queue 0 [1000]).1 = 1000 ∧ 1000 ≤ 4095 ∧
      ∃ t : Nat, (LM35_getTemperature ADC_Read_queue 0 [1000]).1 = some t ∧
        (t : ℤ) = ⌊spec_linear_law 1000⌋ ∧ ((t : ℚ) = spec_linear_law 1000 ↔ 91 ∣ 1000) :=
  ⟨rfl, by decide, C1_linear_law_rounded_down ADC_Read_queue 0 [1000] 1000 rfl (by decide)⟩

/-- C2: LM35_getTemperature is monotone non-decreasing in the raw sample: of two
calls whose reads deliver r1 <= r2, both in [0, 4095], the first returns a
temperature no larger than the second. -/
theorem C2_monotone {σ τ : Type} (ADC_Read : Nat → σ → Nat × σ)
    (ADC_Read2 : Nat → τ → Nat × τ) (pin1 pin2 : Nat) (hw1 : σ) (hw2 : τ) (r1 r2 : Nat)
    (hs1 : (ADC_Read pin1 hw1).1 = r1) (hs2 : (ADC_Read2 pin2 hw2).1 = r2)
    (h12 : r1 ≤ r2) (hr2 : r2 ≤ 4095) :
    ∃ t1 t2 : Nat, (LM35_getTemperature ADC_Read pin1 hw1).1 = some t1 ∧
      (LM35_getTemperature ADC_Read2 pin2 hw2).1 = some t2 ∧ t1 ≤ t2 :=
  ⟨r1 / 91, r2 / 91, LM35_getTemperature_in_range ADC_Read pin1 hw1 r1 hs1 (by omega),
    LM35_getTemperature_in_range ADC_Read2 pin2 hw2 r2 hs2 hr2, Nat.div_le_div_right h12⟩

/-- C2 at the raw samples 90 and 91, read on two different pins. -/
theorem C2_monotone_witness :
    (ADC_Read_queue 0 [90]).1 = 90 ∧ (ADC_Read_queue 1 [91]).1 = 91 ∧ 90 ≤ 91 ∧ 91 ≤ 4095 ∧
      ∃ t1 t2 : Nat, (LM35_getTemperature ADC_Read_queue 0 [90]).1 = some t1 ∧
        (LM35_getTemperature ADC_Read_queue 1 [91]).1 = some t2 ∧ t1 ≤ t2 :=
  ⟨rfl, rfl, by decide, by decide,
    C2_monotone ADC_Read_queue ADC_Read_queue 0 1 [90] [91] 90 91 rfl rfl (by decide)
      (by decide)⟩

/-- C3: for every raw sample r in [0, 4095] the temperature returned by
LM35_getTemperature lies in the closed range [0, 45]. -/
theorem C3_bounded {σ : Type} (ADC_Read : Nat → σ → Nat × σ) (analogPin : Nat) (hw : σ)
    (r : Nat) (hs : (ADC_Read analogPin hw).1 = r) (hr : r ≤ 4095) :
    ∃ t : Nat, (LM35_getTemperature ADC_Read analogPin hw).1 = some t ∧ 0 ≤ t ∧ t ≤ 45 :=
  ⟨r / 91, LM35_getTemperature_in_range ADC_Read analogPin hw r hs hr, Nat.zero_le _,
    by omega⟩

/-- C3 at the raw sample 4094. -/
theorem C3_bounded_witness :
    (ADC_Read_queue 2 [4094]).1 = 4094 ∧ 4094 ≤ 4095 ∧
      ∃ t : Nat, (LM35_getTemperature ADC_Read_queue 2 [4094]).1 = some t ∧ 0 ≤ t ∧ t ≤ 45 :=
  ⟨rfl, by decide, C3_bounded ADC_Read_queue 2 [4094] 4094 rfl (by decide)⟩

/-- C4: the two ends of the raw range map to the two ends of the temperature
range: LM35_getTemperature returns 0 when the raw sample is 0 and 45 when the
raw sample is 4095. -/
theorem C4_endpoints {σ : Type} (ADC_Read : Nat → σ → Nat × σ) (analogPin : Nat) (hw : σ) :
    ((ADC_Read analogPin hw).1 = 0 →
        (LM35_getTemperature ADC_Read analogPin hw).1 = some 0) ∧
      ((ADC_Read analogPin hw).1 = 4095 →
        (LM35_getTemperature ADC_Read analogPin hw).1 = some 45) :=
  ⟨fun h => LM35_getTemperature_in_range ADC_Read analogPin hw 0 h (by omega),
    fun h => LM35_getTemperature_in_range ADC_Read analogPin hw 4095 h (by omega)⟩

/-- C4 on an ADC that delivers 0 and on one that delivers 4095. -/
theorem C4_endpoints_witness :
    (ADC_Read_queue 0 [0]).1 = 0 ∧ (LM35_getTemperature ADC_Read_queue 0 [0]).1 = some 0 ∧
      (ADC_Read_queue 0 [4095]).1 = 4095 ∧
      (LM35_getTemperature ADC_Read_queue 0 [4095]).1 = some 45 :=
  ⟨rfl, (C4_endpoints ADC_Read_queue 0 [0]).1 rfl, rfl,
    (C4_endpoints ADC_Read_queue 0 [4095]).2 rfl⟩

/-- C5 (as stated) fails: the 16-bit raw sample 4186 is above 4095 and the call
returns 46 for it, not the saturated maximum 45. -/
theorem C5_counterexample :
    4095 < 4186 ∧ 4186 < 2 ^ 16 ∧
      (LM35_getTemperature ADC_Read_queue 0 [4186]).1 = some 46 ∧ ¬ (46 ≤ 45) := by
  refine ⟨by decide, by decide, ?_, by decide⟩
  rw [LM35_getTemperature_fst ADC_Read_queue 0 [4186] 4186 rfl (by decide)]
  rfl

/-- C5 (amended): raw samples above 4095 are not clamped.  For every raw sample
r with 4095 < r < 23296 LM35_getTemperature returns the integer quotient r / 91
of the same linear law, which lies in 45..255 and is 45 only while r <= 4185;
so the result stays within [0, 45] exactly for the raw samples up to 4185. -/
theorem C5_no_clamp {σ : Type} (ADC_Read : Nat → σ → Nat × σ) (analogPin : Nat) (hw : σ)
    (r : Nat) (hs : (ADC_Read analogPin hw).1 = r) (hlo : 4095 < r) (hhi : r < 23296) :
    (LM35_getTemperature ADC_Read analogPin hw).1 = some (r / 91) ∧
      45 ≤ r / 91 ∧ r / 91 ≤ 255 ∧ (r / 91 ≤ 45 ↔ r ≤ 4185) := by
  refine ⟨?_, by omega, by omega, by omega⟩
  rw [LM35_getTemperature_fst ADC_Read analogPin hw r hs (by omega), if_pos (by omega)]

/-- The amended C5 at the raw sample 23295. -/
theorem C5_no_clamp_witness :
    (ADC_Read_queue 0 [23295]).1 = 23295 ∧ 4095 < 23295 ∧ 23295 < 23296 ∧
      (LM35_getTemperature ADC_Read_queue 0 [23295]).1 = some (23295 / 91) ∧
      45 ≤ 23295 / 91 ∧ 23295 / 91 ≤ 255 ∧ (23295 / 91 ≤ 45 ↔ 23295 ≤ 4185) :=
  ⟨rfl, by decide, by decide,
    C5_no_clamp ADC_Read_queue 0 [23295] 23295 rfl (by decide) (by decide)⟩

/-- C6 (as stated) fails: with the raw sample pinned at 0 on three consecutive
reads every call returns the temperature 0, the very value returned for the
valid raw sample 1, so no Disconnected error is told apart from a reading. -/
theorem C6_counterexample :
    (LM35_poll ADC_Read_queue 0 3 [0, 0, 0]).1 = [some 0, some 0, some 0] ∧
      (LM35_getTemperature ADC_Read_queue 0 [1]).1 = some 0 :=
  ⟨LM35_poll_zeros 0 3, LM35_getTemperature_in_range ADC_Read_queue 0 [1] 1 rfl (by omega)⟩

/-- C6 (amended): LM35_getTemperature has no error outcome.  For every raw
sample in [0, 4095], 0 included, it yields a temperature in 0..45; a raw sample
of 0 yields the temperature 0, the same value as the valid raw samples 1..90
(every raw sample up to 90 yields 0).  On consecutive reads, whatever the ADC,
every call whose read is in [0, 4095] yields the temperature r / 91 of its own
sample, so any number of consecutive reads that deliver 0 yield the
temperature 0 each time. -/
theorem C6_always_a_temperature {σ : Type} (ADC_Read : Nat → σ → Nat × σ)
    (analogPin : Nat) (hw : σ) (r : Nat) (hs : (ADC_Read analogPin hw).1 = r)
    (hr : r ≤ 4095) (n : Nat) :
    (∃ t : Nat, t ≤ 45 ∧ (LM35_getTemperature ADC_Read analogPin hw).1 = some t ∧
        (r = 0 → t = 0) ∧ (r ≤ 90 → t = 0)) ∧
      ((∀ s ∈ ADC_samples ADC_Read analogPin n hw, s ≤ 4095) →
        (LM35_poll ADC_Read analogPin n hw).1
          = (ADC_samples ADC_Read analogPin n hw).map fun s => some (s / 91)) ∧
      (ADC_samples ADC_Read analogPin n hw = List.replicate n 0 →
        (LM35_poll ADC_Read analogPin n hw).1 = List.replicate n (some 0)) ∧
      (LM35_poll ADC_Read_queue analogPin n (List.replicate n 0)).1
        = List.replicate n (some 0) := by
  refine ⟨⟨r / 91, by omega, LM35_getTemperature_in_range ADC_Read analogPin hw r hs hr,
      ?_, ?_⟩,
    LM35_poll_in_range ADC_Read analogPin n hw,
    LM35_poll_of_zero_samples ADC_Read analogPin n hw,
    LM35_poll_zeros analogPin n⟩
  · intro h0
    subst h0
    rfl
  · intro h90
    omega

/-- The amended C6 on an ADC whose next two reads deliver 0: the sample of the
first call is 0, the two samples are in range and both zero, and the
conclusions hold there. -/
theorem C6_always_a_temperature_witness :
    (ADC_Read_queue 4 [0, 0]).1 = 0 ∧ 0 ≤ 4095 ∧
      (∀ s ∈ ADC_samples ADC_Read_queue 4 2 [0, 0], s ≤ 4095) ∧
      ADC_samples ADC_Read_queue 4 2 [0, 0] = List.replicate 2 0 ∧
      (∃ t : Nat, t ≤ 45 ∧ (LM35_getTemperature ADC_Read_queue 4 [0, 0]).1 = some t ∧
        (0 = 0 → t = 0) ∧ (0 ≤ 90 → t = 0)) ∧
      (LM35_poll ADC_Read_queue 4 2 [0, 0]).1
        = (ADC_samples ADC_Read_queue 4 2 [0, 0]).map (fun s => some (s / 91)) ∧
      (LM35_poll ADC_Read_queue 4 2 [0, 0]).1 = List.replicate 2 (some 0) ∧
      (LM35_poll ADC_Read_queue 4 2 (List.replicate 2 0)).1 = List.replicate 2 (some 0) :=
  ⟨rfl, by decide, by decide, rfl,
    (C6_always_a_temperature ADC_Read_queue 4 [0, 0] 0 rfl (by decide) 2).1,
    (C6_always_a_temperature ADC_Read_queue 4 [0, 0] 0 rfl (by decide) 2).2.1 (by decide),
    (C6_always_a_temperature ADC_Read_queue 4 [0, 0] 0 rfl (by decide) 2).2.2.1 rfl,
    (C6_always_a_temperature ADC_Read_queue 4 [0, 0] 0 rfl (by decide) 2).2.2.2⟩

/-- C7: one call of LM35_getTemperature(analogPin) performs exactly one raw
read, ADC_Read on the analogPin it was given (the log of reads grows by that
pin alone and the hardware is left as that one read leaves it), and its result
depends on that sample only: two calls that observe the same raw sample return
the same temperature, whatever the ADC, the pin and the earlier reads. -/
theorem C7_single_read {σ τ : Type} (ADC_Read : Nat → σ → Nat × σ)
    (ADC_Read2 : Nat → τ → Nat × τ) (pin1 pin2 : Nat) (hw1 : σ) (hw2 : τ)
    (log : List Nat)
    (hsame : (ADC_Read pin1 hw1).1 % 2 ^ 16 = (ADC_Read2 pin2 hw2).1 % 2 ^ 16) :
    (LM35_getTemperature (ADC_Read_logged ADC_Read) pin1 (hw1, log)).2
        = ((ADC_Read pin1 hw1).2, log ++ [pin1]) ∧
      (LM35_getTemperature (ADC_Read_logged ADC_Read) pin1 (hw1, log)).1
        = (LM35_getTemperature ADC_Read pin1 hw1).1 ∧
      (LM35_getTemperature ADC_Read pin1 hw1).2 = (ADC_Read pin1 hw1).2 ∧
      (LM35_getTemperature ADC_Read pin1 hw1).1
        = (LM35_getTemperature ADC_Read2 pin2 hw2).1 := by
  refine ⟨rfl, rfl, rfl, ?_⟩
  show LM35_temperatureOf ((ADC_Read pin1 hw1).1 % 2 ^ 16)
    = LM35_temperatureOf ((ADC_Read2 pin2 hw2).1 % 2 ^ 16)
  rw [hsame]

/-- C7 on two calls that both observe the raw sample 1000, on different pins and
with different samples still pending. -/
theorem C7_single_read_witness :
    (ADC_Read_queue 3 [1000, 7]).1 % 2 ^ 16 = (ADC_Read_queue 5 [1000]).1 % 2 ^ 16 ∧
      (LM35_getTemperature (ADC_Read_logged ADC_Read_queue) 3 ([1000, 7], [9])).2
        = ((ADC_Read_queue 3 [1000, 7]).2, [9] ++ [3]) ∧
      (LM35_getTemperature (ADC_Read_logged ADC_Read_queue) 3 ([1000, 7], [9])).1
        = (LM35_getTemperature ADC_Read_queue 3 [1000, 7]).1 ∧
      (LM35_getTemperature ADC_Read_queue 3 [1000, 7]).2 = (ADC_Read_queue 3 [1000, 7]).2 ∧
      (LM35_getTemperature ADC_Read_queue 3 [1000, 7]).1
        = (LM35_getTemperature ADC_Read_queue 5 [1000]).1 :=
  ⟨rfl, C7_single_read ADC_Read_queue ADC_Read_queue 3 5 [1000, 7] [1000] [9] rfl⟩

/-- C8: LM35_getTemperature truncates the linear law toward zero: for every raw
sample r in [0, 4095] the returned value t is floor(r * 45 / 4095), which is
the integer quotient r / 91, so 0 <= r * 45 / 4095 - t < 1. -/
theorem C8_truncation {σ : Type} (ADC_Read : Nat → σ → Nat × σ) (analogPin : Nat)
    (hw : σ) (r : Nat) (hs : (ADC_Read analogPin hw).1 = r) (hr : r ≤ 4095) :
    ∃ t : Nat, (LM35_getTemperature ADC_Read analogPin hw).1 = some t ∧
      (t : ℤ) = ⌊(r : ℚ) * 45 / 4095⌋ ∧ t = r / 91 ∧
      0 ≤ (r : ℚ) * 45 / 4095 - t ∧ (r : ℚ) * 45 / 4095 - t < 1 := by
  have hlaw : (r : ℚ) * 45 / 4095 = spec_linear_law r := by
    unfold spec_linear_law SENSOR_MAX_TEMPERATURE ADC_MAXIMUM_VALUE
    push_cast
    ring
  have h1 := div91_le_spec_linear_law r
  have h2 := spec_linear_law_lt_div91_succ r
  refine ⟨r / 91, LM35_getTemperature_in_range ADC_Read analogPin hw r hs hr, ?_, rfl, ?_, ?_⟩
  · rw [hlaw]; exact (floor_spec_linear_law r).symm
  · rw [hlaw]; linarith
  · rw [hlaw]; linarith

/-- C8 at the raw sample 2000. -/
theorem C8_truncation_witness :
    (ADC_Read_queue 0 [2000]).1 = 2000 ∧ 2000 ≤ 4095 ∧
      ∃ t : Nat, (LM35_getTemperature ADC_Read_queue 0 [2000]).1 = some t ∧
        (t : ℤ) = ⌊((2000 : Nat) : ℚ) * 45 / 4095⌋ ∧ t = 2000 / 91 ∧
        0 ≤ ((2000 : Nat) : ℚ) * 45 / 4095 - t ∧ ((2000 : Nat) : ℚ) * 45 / 4095 - t < 1 :=
  ⟨rfl, by decide, C8_truncation ADC_Read_queue 0 [2000] 2000 rfl (by decide)⟩

/-- C9: over raw samples in [0, 4095] the temperatures LM35_getTemperature can
return are exactly the integers 0..45; each temperature t in 0..44 is returned
for exactly the 91 raw samples 91*t .. 91*t+90, and the maximum 45 is returned
for exactly one raw sample, r = 4095. -/
theorem C9_image_and_fibres {σ : Type} (ADC_Read : Nat → σ → Nat × σ) (analogPin : Nat)
    (hw : σ) (r : Nat) (hs : (ADC_Read analogPin hw).1 = r) (hr : r ≤ 4095) (t : Nat) :
    (∃ u : Nat, u ≤ 45 ∧ (LM35_getTemperature ADC_Read analogPin hw).1 = some u) ∧
      (t ≤ 45 → ∃ r0 : Nat, r0 ≤ 4095 ∧
        (LM35_getTemperature ADC_Read_queue analogPin [r0]).1 = some t) ∧
      (t ≤ 44 → ((LM35_getTemperature ADC_Read analogPin hw).1 = some t ↔
        91 * t ≤ r ∧ r ≤ 91 * t + 90)) ∧
      (t ≤ 44 → ((Finset.range 4096).filter fun r0 =>
        (LM35_getTemperature ADC_Read_queue analogPin [r0]).1 = some t).card = 91) ∧
      ((LM35_getTemperature ADC_Read analogPin hw).1 = some 45 ↔ r = 4095) ∧
      ((Finset.range 4096).filter fun r0 =>
        (LM35_getTemperature ADC_Read_queue analogPin [r0]).1 = some 45).card = 1 := by
  have hres := LM35_getTemperature_in_range ADC_Read analogPin hw r hs hr
  have hq : ∀ r0 : Nat, r0 ≤ 4095 →
      (LM35_getTemperature ADC_Read_queue analogPin [r0]).1 = some (r0 / 91) :=
    fun r0 h0 => LM35_getTemperature_in_range ADC_Read_queue analogPin [r0] r0 rfl h0
  refine ⟨⟨r / 91, by omega, hres⟩, ?_, ?_, ?_, ?_, ?_⟩
  · intro ht
    refine ⟨91 * t, by omega, ?_⟩
    rw [hq (91 * t) (by omega)]
    congr 1
    omega
  · intro ht
    rw [hres, Option.some_inj]
    omega
  · intro ht
    have hset : ((Finset.range 4096).filter fun r0 =>
        (LM35_getTemperature ADC_Read_queue analogPin [r0]).1 = some t)
        = Finset.Icc (91 * t) (91 * t + 90) := by
      ext r0
      simp only [Finset.mem_filter, Finset.mem_range, Finset.mem_Icc]
      constructor
      · rintro ⟨hlt, he⟩
        rw [hq r0 (by omega), Option.some_inj] at he
        omega
      · rintro ⟨h1, h2⟩
        refine ⟨by omega, ?_⟩
        rw [hq r0 (by omega), Option.some_inj]
        omega
    rw [hset, Nat.card_Icc]
    omega
  · rw [hres, Option.some_inj]
    omega
  · have hset : ((Finset.range 4096).filter fun r0 =>
        (LM35_getTemperature ADC_Read_queue analogPin [r0]).1 = some 45)
        = {4095} := by
      ext r0
      simp only [Finset.mem_filter, Finset.mem_range, Finset.mem_singleton]
      constructor
      · rintro ⟨hlt, he⟩
        rw [hq r0 (by omega), Option.some_inj] at he
        omega
      · rintro rfl
        exact ⟨by omega, hq 4095 (by omega)⟩
    rw [hset, Finset.card_singleton]

/-- C9 at the raw sample 181 and the temperature 1. -/
theorem C9_image_and_fibres_witness :
    (ADC_Read_queue 0 [181]).1 = 181 ∧ 181 ≤ 4095 ∧
      (∃ u : Nat, u ≤ 45 ∧ (LM35_getTemperature ADC_Read_queue 0 [181]).1 = some u) ∧
      (1 ≤ 45 → ∃ r0 : Nat, r0 ≤ 4095 ∧
        (LM35_getTemperature ADC_Read_queue 0 [r0]).1 = some 1) ∧
      (1 ≤ 44 → ((LM35_getTemperature ADC_Read_queue 0 [181]).1 = some 1 ↔
        91 * 1 ≤ 181 ∧ 181 ≤ 91 * 1 + 90)) ∧
      (1 ≤ 44 → ((Finset.range 4096).filter fun r0 =>
        (LM35_getTemperature ADC_Read_queue 0 [r0]).1 = some 1).card = 91) ∧
      ((LM35_getTemperature ADC_Read_queue 0 [181]).1 = some 45 ↔ 181 = 4095) ∧
      ((Finset.range 4096).filter fun r0 =>
        (LM35_getTemperature ADC_Read_queue 0 [r0]).1 = some 45).card = 1 :=
  ⟨rfl, by decide, C9_image_and_fibres ADC_Read_queue 0 [181] 181 rfl (by decide) 1⟩

/-- C10: the conversion in LM35_getTemperature has no arithmetic fault: the
divisor ADC_MAXIMUM_VALUE is non-zero; for every 16-bit raw sample the product
raw * 45 is below 2^32 (the widening to uint32 keeps the sample and the product
is computed exactly); and for every raw sample in [0, 4095] the quotient is at
most 255, so the narrowing cast to uint8 and the uint16-to-uint8 return discard
no bits. -/
theorem C10_no_arithmetic_fault (r : Nat) (h16 : r < 2 ^ 16) :
    ADC_MAXIMUM_VALUE ≠ 0 ∧ double_of_nat ADC_MAXIMUM_VALUE ≠ 0 ∧
      r * 45 < 2 ^ 32 ∧ r % 2 ^ 32 = r ∧
      double_mul (double_of_nat (r % 2 ^ 32)) SENSOR_MAX_TEMPERATURE = ((r * 45 : Nat) : ℚ) ∧
      (r ≤ 4095 →
        double_div (double_mul (double_of_nat (r % 2 ^ 32)) SENSOR_MAX_TEMPERATURE)
            (double_of_nat ADC_MAXIMUM_VALUE) ≤ 255 ∧
        ∃ n : Nat,
          double_to_uint8
              (double_div (double_mul (double_of_nat (r % 2 ^ 32)) SENSOR_MAX_TEMPERATURE)
                (double_of_nat ADC_MAXIMUM_VALUE)) = some n ∧
            n ≤ 255 ∧ n % 2 ^ 16 = n ∧ n % 2 ^ 16 % 2 ^ 8 = n) := by
  have hw : r % 2 ^ 32 = r := Nat.mod_eq_of_lt (by omega)
  refine ⟨by decide, ?_, by omega, hw, ?_, ?_⟩
  · rw [double_divisor_exact]
    norm_num
  · rw [hw]
    exact double_product_exact r h16
  · intro hr
    rw [hw]
    obtain ⟨h1, h2⟩ := quotient_mem_Ico r h16
    have hq : r / 91 ≤ 45 := by omega
    have hqQ : ((r / 91 : Nat) : ℚ) ≤ 45 := by exact_mod_cast hq
    refine ⟨by linarith, r / 91, ?_, by omega, by omega, by omega⟩
    rw [double_to_uint8_of_mem_Ico _ (r / 91) h1 h2, if_pos (by omega)]

/-- C10 at the largest raw sample of the 12-bit range. -/
theorem C10_no_arithmetic_fault_witness :
    4095 < 2 ^ 16 ∧
      (ADC_MAXIMUM_VALUE ≠ 0 ∧ double_of_nat ADC_MAXIMUM_VALUE ≠ 0 ∧
      4095 * 45 < 2 ^ 32 ∧ 4095 % 2 ^ 32 = 4095 ∧
      double_mul (double_of_nat (4095 % 2 ^ 32)) SENSOR_MAX_TEMPERATURE
        = ((4095 * 45 : Nat) : ℚ) ∧
      (4095 ≤ 4095 →
        double_div (double_mul (double_of_nat (4095 % 2 ^ 32)) SENSOR_MAX_TEMPERATURE)
            (double_of_nat ADC_MAXIMUM_VALUE) ≤ 255 ∧
        ∃ n : Nat,
          double_to_uint8
              (double_div (double_mul (double_of_nat (4095 % 2 ^ 32)) SENSOR_MAX_TEMPERATURE)
                (double_of_nat ADC_MAXIMUM_VALUE)) = some n ∧
            n ≤ 255 ∧ n % 2 ^ 16 = n ∧ n % 2 ^ 16 % 2 ^ 8 = n)) :=
  ⟨by decide, C10_no_arithmetic_fault 4095 (by decide)⟩

end SeatHeater
